import Mathlib

/-!
Verification development for the remote command-execution transport of
`score_itf` (`src/score/itf/core/com/ssh.py`).

The Python functions are shallowly embedded:
* bytes are `List Nat` (each entry a byte value),
* text is `List Char`,
* `bytes.decode("utf-8", errors="replace")` is `utf8DecodeReplace`
  (the standard incremental UTF-8 decoder with maximal-subpart
  replacement, which is what CPython's `replace` error handler does),
* `str.splitlines(keepends=True)` is `splitLines` over the full set of
  universal line boundaries recognised by Python,
* the polling loop `_read_output_with_timeout` is a step function over a
  scripted sequence of channel observations (`IterEnv`), one per loop
  iteration; wall-clock instants are rationals.
-/

namespace ScoreItf

/-- The characters Python's `str.splitlines` treats as line boundaries:
LF, CR, VT, FF, FS, GS, RS, NEL, LINE SEPARATOR, PARAGRAPH SEPARATOR. -/
def isLineBoundary (c : Char) : Bool :=
  c = '\n' || c = '\r' || c = Char.ofNat 0x0B || c = Char.ofNat 0x0C ||
  c = Char.ofNat 0x1C || c = Char.ofNat 0x1D || c = Char.ofNat 0x1E ||
  c = Char.ofNat 0x85 || c = Char.ofNat 0x2028 || c = Char.ofNat 0x2029

/-- Worker for `splitLines`: `acc` holds the current (unfinished) line in
reverse.  A `"\r\n"` pair is consumed as a single boundary; every other
boundary character closes a line by itself. -/
def splitLinesAux : List Char → List Char → List (List Char)
  | acc, [] => if acc = [] then [] else [acc.reverse]
  | acc, [c] =>
    if c = '\r' then [acc.reverse ++ ['\r']]
    else if isLineBoundary c then [acc.reverse ++ [c]]
    else [(c :: acc).reverse]
  | acc, c :: d :: rest =>
    if c = '\r' then
      if d = '\n' then (acc.reverse ++ ['\r', '\n']) :: splitLinesAux [] rest
      else (acc.reverse ++ ['\r']) :: splitLinesAux [] (d :: rest)
    else if isLineBoundary c then
      (acc.reverse ++ [c]) :: splitLinesAux [] (d :: rest)
    else
      splitLinesAux (c :: acc) (d :: rest)

/-- Python's `text.splitlines(keepends=True)`. -/
def splitLines (t : List Char) : List (List Char) := splitLinesAux [] t

/-- The tail of `_iter_channel_lines_from_bytes`: pop the last line back
into the pending fragment unless it ends in `'\n'`
(`if lines and not lines[-1].endswith("\n")`). -/
def commitLines (lines : List (List Char)) : List (List Char) × List Char :=
  match lines.getLast? with
  | none => ([], [])
  | some l => if l.getLast? = some '\n' then (lines, []) else (lines.dropLast, l)

/-- U+FFFD REPLACEMENT CHARACTER, produced by `errors="replace"`. -/
def replChar : Char := Char.ofNat 0xFFFD

/-- A UTF-8 continuation byte. -/
def utf8Cont (b : Nat) : Bool := 0x80 ≤ b && b < 0xC0

/-- Admissible second byte after lead byte `b` (the constrained ranges of
E0/ED/F0/F4 rule out overlongs, surrogates and values above U+10FFFF). -/
def utf8Valid2 (b b2 : Nat) : Bool :=
  if b = 0xE0 then 0xA0 ≤ b2 && b2 < 0xC0
  else if b = 0xED then 0x80 ≤ b2 && b2 < 0xA0
  else if b = 0xF0 then 0x90 ≤ b2 && b2 < 0xC0
  else if b = 0xF4 then 0x80 ≤ b2 && b2 < 0x90
  else utf8Cont b2

/-- Worker for `utf8DecodeReplace`.  The fuel argument (instantiated with
the byte count, an upper bound on the number of decoding steps) only makes
the recursion structural; it never runs out. -/
def utf8DecodeGo : Nat → List Nat → List Char
  | 0, _ => []
  | _ + 1, [] => []
  | fuel + 1, b :: rest =>
    if b < 0x80 then Char.ofNat b :: utf8DecodeGo fuel rest
    else if b < 0xC2 then replChar :: utf8DecodeGo fuel rest
    else if b < 0xE0 then
      match rest with
      | b2 :: rest2 =>
        if utf8Cont b2 then
          Char.ofNat ((b - 0xC0) * 0x40 + (b2 - 0x80)) :: utf8DecodeGo fuel rest2
        else replChar :: utf8DecodeGo fuel rest
      | [] => [replChar]
    else if b < 0xF0 then
      match rest with
      | b2 :: rest2 =>
        if utf8Valid2 b b2 then
          match rest2 with
          | b3 :: rest3 =>
            if utf8Cont b3 then
              Char.ofNat ((b - 0xE0) * 0x1000 + (b2 - 0x80) * 0x40 + (b3 - 0x80)) ::
                utf8DecodeGo fuel rest3
            else replChar :: utf8DecodeGo fuel rest2
          | [] => [replChar]
        else replChar :: utf8DecodeGo fuel rest
      | [] => [replChar]
    else if b < 0xF5 then
      match rest with
      | b2 :: rest2 =>
        if utf8Valid2 b b2 then
          match rest2 with
          | b3 :: rest3 =>
            if utf8Cont b3 then
              match rest3 with
              | b4 :: rest4 =>
                if utf8Cont b4 then
                  Char.ofNat ((b - 0xF0) * 0x40000 + (b2 - 0x80) * 0x1000 +
                      (b3 - 0x80) * 0x40 + (b4 - 0x80)) :: utf8DecodeGo fuel rest4
                else replChar :: utf8DecodeGo fuel rest3
              | [] => [replChar]
            else replChar :: utf8DecodeGo fuel rest2
          | [] => [replChar]
        else replChar :: utf8DecodeGo fuel rest
      | [] => [replChar]
    else replChar :: utf8DecodeGo fuel rest

/-- `bytes.decode("utf-8", errors="replace")`: the standard UTF-8 decoder
with one U+FFFD per maximal subpart of an ill-formed subsequence. -/
def utf8DecodeReplace (data : List Nat) : List Char :=
  utf8DecodeGo data.length data

/-- `_iter_channel_lines_from_bytes(data, partial)` from `ssh.py`:
decode permissively, prepend the pending fragment, split into lines
keeping terminators, and hold back a final piece not ending in `'\n'`. -/
def iter_channel_lines_from_bytes (data : List Nat) (pending : List Char) :
    List (List Char) × List Char :=
  commitLines (splitLines (pending ++ utf8DecodeReplace data))

/-- Same step on already-decoded text (the split/commit part of
`_iter_channel_lines_from_bytes`). -/
def iterTextStep (pending chunk : List Char) : List (List Char) × List Char :=
  commitLines (splitLines (pending ++ chunk))

/-- The final-flush idiom `if partial: lines.append(partial)` used on
every exit path of `_read_output_with_timeout`. -/
def flushPending (lines : List (List Char)) (pending : List Char) : List (List Char) :=
  if pending = [] then lines else lines ++ [pending]

/-- Feed byte chunks one at a time through
`_iter_channel_lines_from_bytes`, threading the pending fragment,
starting from an empty fragment (the capture loop's per-stream use). -/
def runByteChunks (chunks : List (List Nat)) : List (List Char) × List Char :=
  chunks.foldl
    (fun st data =>
      let pr := iter_channel_lines_from_bytes data st.2
      (st.1 ++ pr.1, pr.2))
    ([], [])

/-- Text-level chunk run, from a given pending fragment. -/
def runTextFrom (pending : List Char) (chunks : List (List Char)) :
    List (List Char) × List Char :=
  chunks.foldl
    (fun st chunk =>
      let pr := iterTextStep st.2 chunk
      (st.1 ++ pr.1, pr.2))
    ([], pending)

/-! ### Rewriting lemmas for `splitLinesAux` -/

theorem splitLinesAux_nil (acc : List Char) :
    splitLinesAux acc [] = if acc = [] then [] else [acc.reverse] := rfl

theorem splitLinesAux_crlf (acc rest : List Char) :
    splitLinesAux acc ('\r' :: '\n' :: rest) =
      (acc.reverse ++ ['\r', '\n']) :: splitLinesAux [] rest := by
  simp [splitLinesAux]

theorem splitLinesAux_cr_nil (acc : List Char) :
    splitLinesAux acc ['\r'] = [acc.reverse ++ ['\r']] := by
  simp [splitLinesAux]

theorem splitLinesAux_cr_cons (acc : List Char) {d : Char} (rest : List Char) (hd : d ≠ '\n') :
    splitLinesAux acc ('\r' :: d :: rest) =
      (acc.reverse ++ ['\r']) :: splitLinesAux [] (d :: rest) := by
  simp [splitLinesAux, hd]

theorem splitLinesAux_boundary (acc : List Char) {c : Char} (rest : List Char)
    (hc : c ≠ '\r') (hb : isLineBoundary c = true) :
    splitLinesAux acc (c :: rest) = (acc.reverse ++ [c]) :: splitLinesAux [] rest := by
  cases rest with
  | nil => simp [splitLinesAux, hc, hb]
  | cons d rest => simp [splitLinesAux, hc, hb]

theorem splitLinesAux_plain (acc : List Char) {c : Char} (rest : List Char)
    (hb : isLineBoundary c = false) :
    splitLinesAux acc (c :: rest) = splitLinesAux (c :: acc) rest := by
  have hc : c ≠ '\r' := fun h => by subst h; simp [isLineBoundary] at hb
  cases rest with
  | nil => simp [splitLinesAux, hc, hb]
  | cons d rest => simp [splitLinesAux, hc, hb]

/-- Induction following the scanning order of `splitLinesAux`: a `"\r\n"`
pair is consumed in one step, any other character in one step. -/
theorem lineScanInduction (P : List Char → Prop)
    (hnil : P [])
    (hcrlf : ∀ rest, P rest → P ('\r' :: '\n' :: rest))
    (hcr : ∀ rest, rest.head? ≠ some '\n' → P rest → P ('\r' :: rest))
    (hbnd : ∀ c rest, c ≠ '\r' → isLineBoundary c = true → P rest → P (c :: rest))
    (hpl : ∀ c rest, isLineBoundary c = false → P rest → P (c :: rest)) :
    ∀ l, P l := by
  have key : ∀ n (l : List Char), l.length ≤ n → P l := by
    intro n
    induction n with
    | zero =>
      intro l hl
      have hl0 : l = [] := List.length_eq_zero.mp (Nat.le_zero.mp hl)
      rw [hl0]; exact hnil
    | succ n ih =>
      intro l hl
      cases l with
      | nil => exact hnil
      | cons c rest =>
        by_cases hc : c = '\r'
        · subst hc
          cases rest with
          | nil => exact hcr [] (by simp) hnil
          | cons d rest2 =>
            by_cases hd : d = '\n'
            · subst hd
              exact hcrlf rest2 (ih rest2 (by simp at hl; omega))
            · exact hcr (d :: rest2) (by simp [hd]) (ih (d :: rest2) (by simp at hl ⊢; omega))
        · by_cases hb : isLineBoundary c = true
          · exact hbnd c rest hc hb (ih rest (by simp at hl; omega))
          · exact hpl c rest (by simpa using hb) (ih rest (by simp at hl; omega))
  exact fun l => key l.length l (le_refl _)

theorem splitLinesAux_ne_nil : ∀ (l : List Char) (acc : List Char),
    acc ≠ [] ∨ l ≠ [] → splitLinesAux acc l ≠ [] := by
  refine lineScanInduction (fun l => ∀ acc, acc ≠ [] ∨ l ≠ [] → splitLinesAux acc l ≠ [])
    ?_ ?_ ?_ ?_ ?_
  · intro acc h
    rcases h with h | h
    · simp [splitLinesAux_nil, h]
    · exact absurd rfl h
  · intro rest _ acc _
    simp [splitLinesAux_crlf]
  · intro rest hh _ acc _
    cases rest with
    | nil => simp [splitLinesAux_cr_nil]
    | cons d rest2 =>
      have hd : d ≠ '\n' := by simpa using hh
      simp [splitLinesAux_cr_cons _ _ hd]
  · intro c rest hc hb _ acc _
    simp [splitLinesAux_boundary _ _ hc hb]
  · intro c rest hb ih acc _
    rw [splitLinesAux_plain _ _ hb]
    exact ih (c :: acc) (Or.inl (by simp))

/-- A run of non-boundary characters can be moved from the input to the
accumulator. -/
theorem splitLinesAux_accFold (d : List Char) (acc l : List Char)
    (hd : ∀ c ∈ d, isLineBoundary c = false) :
    splitLinesAux acc (d ++ l) = splitLinesAux (d.reverse ++ acc) l := by
  induction d generalizing acc with
  | nil => simp
  | cons x d' ih =>
    have hx : isLineBoundary x = false := hd x (by simp)
    rw [List.cons_append, splitLinesAux_plain _ _ hx,
      ih (x :: acc) (fun c hc => hd c (by simp [hc]))]
    simp

/-! ### `commitLines` and `flushPending` -/

theorem commitLines_nil : commitLines [] = ([], []) := rfl

theorem commitLines_singleton (x : List Char) :
    commitLines [x] = if x.getLast? = some '\n' then ([x], []) else ([], x) := by
  unfold commitLines
  simp

theorem commitLines_cons (x : List Char) {L : List (List Char)} (hL : L ≠ []) :
    commitLines (x :: L) = (x :: (commitLines L).1, (commitLines L).2) := by
  cases L with
  | nil => exact absurd rfl hL
  | cons y L' =>
    unfold commitLines
    rw [List.getLast?_cons_cons]
    cases h : (y :: L').getLast? with
    | none => simp at h
    | some l =>
      by_cases hn : l.getLast? = some '\n'
      · simp [hn]
      · simp [hn]

theorem commitLines_pending (ls : List (List Char)) :
    (commitLines ls).2 = [] ∨ (commitLines ls).2.getLast? ≠ some '\n' := by
  unfold commitLines
  cases h : ls.getLast? with
  | none => simp
  | some l => by_cases hn : l.getLast? = some '\n' <;> simp [hn]

theorem flushPending_commit {ls : List (List Char)} (hne : ∀ l ∈ ls, l ≠ []) :
    flushPending (commitLines ls).1 (commitLines ls).2 = ls := by
  unfold commitLines
  cases h : ls.getLast? with
  | none => simp [flushPending, List.getLast?_eq_none_iff.mp h]
  | some l =>
    have hmem : l ∈ ls := List.mem_of_mem_getLast? (by simp [h])
    have hlne : l ≠ [] := hne l hmem
    by_cases hn : l.getLast? = some '\n'
    · simp [hn, flushPending]
    · simp only [hn, if_neg, flushPending, hlne, ite_false]
      exact List.dropLast_append_getLast? l (by simp [h])

theorem flushPending_append (A B : List (List Char)) (p : List Char) :
    flushPending (A ++ B) p = A ++ flushPending B p := by
  unfold flushPending
  split <;> simp

/-! ### The chunk-composition (master) lemma -/

/-- Shared assembly step: a line emitted at the front passes through
`commitLines` unchanged when more lines follow. -/
theorem master_assemble (X : List Char) {r : List Char} (b : List Char)
    (ih : splitLinesAux [] (r ++ b) =
      (commitLines (splitLinesAux [] r)).1 ++
        splitLinesAux [] ((commitLines (splitLinesAux [] r)).2 ++ b))
    (hr : r ≠ []) :
    X :: splitLinesAux [] (r ++ b) =
      (commitLines (X :: splitLinesAux [] r)).1 ++
        splitLinesAux [] ((commitLines (X :: splitLinesAux [] r)).2 ++ b) := by
  have hL : splitLinesAux [] r ≠ [] := splitLinesAux_ne_nil r [] (Or.inr hr)
  rw [commitLines_cons X hL, ih]
  simp

/-- Key compositionality property of the scanner: the lines of `a ++ b`
are the committed lines of `a` followed by the lines of the pending
fragment of `a` glued onto `b`.  This is exactly what makes sequential
chunk feeding through `_iter_channel_lines_from_bytes` agree with
one-shot splitting. -/
theorem splitLinesAux_master : ∀ a acc b : List Char,
    (∀ c ∈ acc, isLineBoundary c = false) →
    splitLinesAux acc (a ++ b) =
      (commitLines (splitLinesAux acc a)).1 ++
        splitLinesAux [] ((commitLines (splitLinesAux acc a)).2 ++ b) := by
  refine lineScanInduction (fun a => ∀ acc b,
    (∀ c ∈ acc, isLineBoundary c = false) →
    splitLinesAux acc (a ++ b) =
      (commitLines (splitLinesAux acc a)).1 ++
        splitLinesAux [] ((commitLines (splitLinesAux acc a)).2 ++ b)) ?_ ?_ ?_ ?_ ?_
  · -- a = []
    intro acc b hacc
    by_cases ha : acc = []
    · subst ha
      simp [splitLinesAux_nil, commitLines_nil]
    · rw [List.nil_append, splitLinesAux_nil, if_neg ha]
      have hh : (acc.reverse).getLast? ≠ some '\n' := by
        rw [List.getLast?_reverse]
        cases hhd : acc.head? with
        | none => simp
        | some c =>
          have hcm : c ∈ acc := List.mem_of_mem_head? (by simp [hhd])
          have hcb := hacc c hcm
          intro hEq
          have : c = '\n' := by simpa using hEq
          subst this
          simp [isLineBoundary] at hcb
      rw [commitLines_singleton, if_neg hh]
      rw [splitLinesAux_accFold acc.reverse [] b
        (fun c hc => hacc c (List.mem_reverse.mp hc))]
      simp
  · -- a = '\r' :: '\n' :: rest
    intro rest ih acc b hacc
    simp only [List.cons_append]
    rw [splitLinesAux_crlf, splitLinesAux_crlf]
    by_cases hrest : rest = []
    · subst hrest
      rw [show splitLinesAux [] ([] ++ b) = splitLinesAux [] b from by simp]
      rw [splitLinesAux_nil, if_pos rfl]
      rw [commitLines_singleton, if_pos (by simp)]
      simp
    · exact master_assemble _ b (ih [] b (by simp)) hrest
  · -- a = '\r' :: rest with rest.head? ≠ '\n'
    intro rest hh ih acc b hacc
    cases rest with
    | nil =>
      rw [splitLinesAux_cr_nil, commitLines_singleton, if_neg (by simp)]
      rw [List.nil_append, List.append_assoc]
      rw [splitLinesAux_accFold acc.reverse [] _
        (fun c hc => hacc c (List.mem_reverse.mp hc))]
      simp
    | cons d rest2 =>
      have hd : d ≠ '\n' := by simpa using hh
      simp only [List.cons_append]
      rw [splitLinesAux_cr_cons _ _ hd, splitLinesAux_cr_cons _ _ hd]
      exact master_assemble _ b (ih [] b (by simp)) (by simp)
  · -- a = c :: rest, c a non-CR boundary
    intro c rest hc hb ih acc b hacc
    simp only [List.cons_append]
    rw [splitLinesAux_boundary _ _ hc hb, splitLinesAux_boundary _ _ hc hb]
    by_cases hrest : rest = []
    · subst hrest
      rw [splitLinesAux_nil, if_pos rfl]
      by_cases hcn : c = '\n'
      · subst hcn
        rw [commitLines_singleton, if_pos (by simp)]
        simp
      · rw [commitLines_singleton, if_neg (by simp [hcn])]
        rw [List.nil_append, List.append_assoc]
        rw [splitLinesAux_accFold acc.reverse [] _
          (fun x hx => hacc x (List.mem_reverse.mp hx))]
        simp only [List.reverse_reverse, List.append_nil, List.singleton_append]
        rw [splitLinesAux_boundary _ _ hc hb]
        simp
    · exact master_assemble _ b (ih [] b (by simp)) hrest
  · -- a = c :: rest, plain character
    intro c rest hb ih acc b hacc
    simp only [List.cons_append]
    rw [splitLinesAux_plain _ _ hb, splitLinesAux_plain _ _ hb]
    refine ih (c :: acc) b ?_
    intro x hx
    rcases List.mem_cons.mp hx with h | h
    · subst h; exact hb
    · exact hacc x h

/-- `splitLines` version of the master lemma, phrased through the
reassembly step `iterTextStep` run on an empty pending fragment. -/
theorem splitLines_append_commit (a b : List Char) :
    splitLines (a ++ b) =
      (commitLines (splitLines a)).1 ++
        splitLines ((commitLines (splitLines a)).2 ++ b) :=
  splitLinesAux_master a [] b (by simp)

/-! ### Structural facts about the produced lines -/

/-- Keepends: splitting loses no characters. -/
theorem splitLinesAux_flatten : ∀ a acc : List Char,
    (splitLinesAux acc a).flatten = acc.reverse ++ a := by
  refine lineScanInduction (fun a => ∀ acc, (splitLinesAux acc a).flatten = acc.reverse ++ a)
    ?_ ?_ ?_ ?_ ?_
  · intro acc
    by_cases h : acc = [] <;> simp [splitLinesAux_nil, h]
  · intro rest ih acc
    rw [splitLinesAux_crlf]
    simp [ih]
  · intro rest hh ih acc
    cases rest with
    | nil => simp [splitLinesAux_cr_nil]
    | cons d r2 =>
      have hd : d ≠ '\n' := by simpa using hh
      rw [splitLinesAux_cr_cons _ _ hd]
      simp [ih]
  · intro c rest hc hb ih acc
    rw [splitLinesAux_boundary _ _ hc hb]
    simp [ih]
  · intro c rest hb ih acc
    rw [splitLinesAux_plain _ _ hb]
    simp [ih]

theorem splitLines_flatten (t : List Char) : (splitLines t).flatten = t := by
  simpa using splitLinesAux_flatten t []

/-- Every produced line is nonempty. -/
theorem splitLinesAux_mem_ne_nil : ∀ a acc l,
    (∀ x ∈ (acc : List Char), True) → l ∈ splitLinesAux acc a → l ≠ [] := by
  refine lineScanInduction (fun a => ∀ acc l, (∀ x ∈ (acc : List Char), True) →
    l ∈ splitLinesAux acc a → l ≠ []) ?_ ?_ ?_ ?_ ?_
  · intro acc l _ hl
    by_cases h : acc = []
    · simp [splitLinesAux_nil, h] at hl
    · rw [splitLinesAux_nil, if_neg h] at hl
      simp at hl
      simp [hl, h]
  · intro rest ih acc l _ hl
    rw [splitLinesAux_crlf] at hl
    rcases List.mem_cons.mp hl with h | h
    · simp [h]
    · exact ih [] l (by simp) h
  · intro rest hh ih acc l _ hl
    cases rest with
    | nil =>
      rw [splitLinesAux_cr_nil] at hl
      simp at hl
      simp [hl]
    | cons d r2 =>
      have hd : d ≠ '\n' := by simpa using hh
      rw [splitLinesAux_cr_cons _ _ hd] at hl
      rcases List.mem_cons.mp hl with h | h
      · simp [h]
      · exact ih [] l (by simp) h
  · intro c rest hc hb ih acc l _ hl
    rw [splitLinesAux_boundary _ _ hc hb] at hl
    rcases List.mem_cons.mp hl with h | h
    · simp [h]
    · exact ih [] l (by simp) h
  · intro c rest hb ih acc l _ hl
    rw [splitLinesAux_plain _ _ hb] at hl
    exact ih (c :: acc) l (by simp) hl

theorem splitLines_mem_ne_nil {t l : List Char} (hl : l ∈ splitLines t) : l ≠ [] :=
  splitLinesAux_mem_ne_nil t [] l (by simp) hl

/-- Every line except possibly the last ends in a line-boundary
character (kept by the split). -/
theorem splitLinesAux_dropLast_boundary : ∀ a acc l,
    l ∈ (splitLinesAux acc a).dropLast →
    ∃ c, l.getLast? = some c ∧ isLineBoundary c = true := by
  have memStep : ∀ (x : List Char) (S : List (List Char)) (l : List Char),
      l ∈ (x :: S).dropLast → l = x ∨ l ∈ S.dropLast := by
    intro x S l h
    cases S with
    | nil => simp at h
    | cons y S' =>
      rw [List.dropLast_cons₂] at h
      exact List.mem_cons.mp h
  refine lineScanInduction (fun a => ∀ acc l, l ∈ (splitLinesAux acc a).dropLast →
    ∃ c, l.getLast? = some c ∧ isLineBoundary c = true) ?_ ?_ ?_ ?_ ?_
  · intro acc l hl
    by_cases h : acc = [] <;> simp [splitLinesAux_nil, h] at hl
  · intro rest ih acc l hl
    rw [splitLinesAux_crlf] at hl
    rcases memStep _ _ _ hl with h | h
    · subst h
      refine ⟨'\n', ?_, by decide⟩
      simp
    · exact ih [] l h
  · intro rest hh ih acc l hl
    cases rest with
    | nil =>
      rw [splitLinesAux_cr_nil] at hl
      simp at hl
    | cons d r2 =>
      have hd : d ≠ '\n' := by simpa using hh
      rw [splitLinesAux_cr_cons _ _ hd] at hl
      rcases memStep _ _ _ hl with h | h
      · subst h
        refine ⟨'\r', ?_, by decide⟩
        simp
      · exact ih [] l h
  · intro c rest hc hb ih acc l hl
    rw [splitLinesAux_boundary _ _ hc hb] at hl
    rcases memStep _ _ _ hl with h | h
    · subst h
      refine ⟨c, ?_, hb⟩
      simp
    · exact ih [] l h
  · intro c rest hb ih acc l hl
    rw [splitLinesAux_plain _ _ hb] at hl
    exact ih (c :: acc) l hl

/-! ### Sequential chunk feeding -/

theorem runTextFrom_nil (p : List Char) : runTextFrom p [] = ([], p) := rfl

theorem runTextFrom_foldAcc : ∀ (chunks : List (List Char)) (L : List (List Char))
    (p : List Char),
    List.foldl
        (fun st chunk =>
          let pr := iterTextStep st.2 chunk
          (st.1 ++ pr.1, pr.2))
        (L, p) chunks =
      (L ++ (runTextFrom p chunks).1, (runTextFrom p chunks).2) := by
  intro chunks
  induction chunks with
  | nil => intro L p; simp [runTextFrom_nil]
  | cons c rest ih =>
    intro L p
    show List.foldl _ (L ++ (iterTextStep p c).1, (iterTextStep p c).2) rest = _
    rw [ih]
    have h2 : runTextFrom p (c :: rest) =
        ((iterTextStep p c).1 ++ (runTextFrom (iterTextStep p c).2 rest).1,
          (runTextFrom (iterTextStep p c).2 rest).2) := by
      show List.foldl _ (([] : List (List Char)) ++ (iterTextStep p c).1,
        (iterTextStep p c).2) rest = _
      rw [ih]
      simp
    rw [h2]
    simp

theorem runTextFrom_cons (p : List Char) (c : List Char) (chunks : List (List Char)) :
    runTextFrom p (c :: chunks) =
      ((iterTextStep p c).1 ++ (runTextFrom (iterTextStep p c).2 chunks).1,
        (runTextFrom (iterTextStep p c).2 chunks).2) := by
  unfold runTextFrom
  simp only [List.foldl_cons]
  have := runTextFrom_foldAcc chunks ((iterTextStep p c).1) ((iterTextStep p c).2)
  simpa using this

/-- Flushing the sequentially-fed result recovers exactly the one-shot
line split of the whole text. -/
theorem runTextFrom_flush : ∀ chunks : List (List Char), ∀ p : List Char,
    chunks ≠ [] →
    flushPending (runTextFrom p chunks).1 (runTextFrom p chunks).2 =
      splitLines (p ++ chunks.flatten) := by
  intro chunks
  induction chunks with
  | nil => intro p h; exact absurd rfl h
  | cons c rest ih =>
    intro p _
    by_cases hr : rest = []
    · subst hr
      rw [runTextFrom_cons]
      simp only [runTextFrom_nil]
      have : iterTextStep p c = commitLines (splitLines (p ++ c)) := rfl
      rw [this]
      simp only [List.append_nil, List.flatten_cons, List.flatten_nil]
      rw [flushPending_commit (fun l hl => splitLines_mem_ne_nil hl)]
    · rw [runTextFrom_cons]
      rw [flushPending_append]
      rw [ih _ hr]
      have hstep : iterTextStep p c = commitLines (splitLines (p ++ c)) := rfl
      rw [hstep]
      have := splitLines_append_commit (p ++ c) rest.flatten
      simp only [List.flatten_cons, ← List.append_assoc]
      rw [this]

theorem runByteChunks_eq_text (chunks : List (List Nat)) :
    runByteChunks chunks = runTextFrom [] (chunks.map utf8DecodeReplace) := by
  unfold runByteChunks runTextFrom
  rw [List.foldl_map]
  rfl

theorem flushPending_flatten (C : List (List Char)) (P : List Char) :
    (flushPending C P).flatten = C.flatten ++ P := by
  unfold flushPending
  split <;> simp [*]

/-- Committing never drops characters: committed lines plus pending
fragment hold exactly the split text. -/
theorem commitLines_flatten {ls : List (List Char)} (hne : ∀ l ∈ ls, l ≠ []) :
    (commitLines ls).1.flatten ++ (commitLines ls).2 = ls.flatten := by
  rw [← flushPending_flatten, flushPending_commit hne]

/-- One reassembly step conserves the decoded byte stream. -/
theorem iter_step_conservation (data : List Nat) (pending : List Char) :
    (iter_channel_lines_from_bytes data pending).1.flatten ++
        (iter_channel_lines_from_bytes data pending).2 =
      pending ++ utf8DecodeReplace data := by
  unfold iter_channel_lines_from_bytes
  rw [commitLines_flatten (fun l hl => splitLines_mem_ne_nil hl), splitLines_flatten]

/-- Sequential feeding conserves the concatenation of the per-chunk
decodes. -/
theorem runByteChunks_conservation (chunks : List (List Nat)) :
    (runByteChunks chunks).1.flatten ++ (runByteChunks chunks).2 =
      (chunks.map utf8DecodeReplace).flatten := by
  rw [runByteChunks_eq_text]
  by_cases h : chunks = []
  · subst h; rfl
  · have hne : chunks.map utf8DecodeReplace ≠ [] := by simpa using h
    rw [← flushPending_flatten, runTextFrom_flush _ _ hne, List.nil_append,
      splitLines_flatten]

/-! ### The capture loop `_read_output_with_timeout`

The loop interacts with the channel and the clock once per iteration; an
`IterEnv` records what that iteration observes: `time.time()` at the top
of the loop, the two `recv*_ready()` polls, the bytes a `recv*` call
would return, whether the `recv` call raises, `exit_status_ready()`, and
the two `recv*_ready()` re-checks performed after the post-exit drain
wait.  Running the loop on a finite script of observations either
terminates inside the script (`some` result) or consumes it without
terminating (`none`). -/

structure IterEnv where
  now : ℚ
  stdoutReady : Bool
  stdoutData : List Nat
  recvFails : Bool
  stderrReady : Bool
  stderrData : List Nat
  exitReady : Bool
  postStdoutReady : Bool
  postStderrReady : Bool
deriving DecidableEq

structure CaptureState where
  stdoutLines : List (List Char)
  stderrLines : List (List Char)
  stdoutPend : List Char
  stderrPend : List Char
deriving DecidableEq

inductive CaptureExc where
  | timeoutErr : CaptureExc
  | channelErr : CaptureExc
deriving DecidableEq

structure CaptureResult where
  stdoutLines : List (List Char)
  stderrLines : List (List Char)
  exc : Option CaptureExc
deriving DecidableEq

def initCaptureState : CaptureState := ⟨[], [], [], []⟩

/-- Both `return` paths of `_read_output_with_timeout` flush the pending
fragments into the line lists (`if partial: lines.append(partial)`). -/
def finishCapture (st : CaptureState) (exc : Option CaptureExc) : CaptureResult :=
  ⟨flushPending st.stdoutLines st.stdoutPend,
    flushPending st.stderrLines st.stderrPend, exc⟩

/-- `channel.recv(32768)` followed by `_iter_channel_lines_from_bytes`. -/
def readStdoutStep (st : CaptureState) (data : List Nat) : CaptureState :=
  let pr := iter_channel_lines_from_bytes data st.stdoutPend
  { st with stdoutLines := st.stdoutLines ++ pr.1, stdoutPend := pr.2 }

/-- `channel.recv_stderr(32768)` followed by
`_iter_channel_lines_from_bytes`. -/
def readStderrStep (st : CaptureState) (data : List Nat) : CaptureState :=
  let pr := iter_channel_lines_from_bytes data st.stderrPend
  { st with stderrLines := st.stderrLines ++ pr.1, stderrPend := pr.2 }

/-- State change of one iteration's read phase. -/
def captureIterState (separateStderr : Bool) (e : IterEnv) (st : CaptureState) :
    CaptureState :=
  let st1 := if e.stdoutReady then readStdoutStep st e.stdoutData else st
  if separateStderr && e.stderrReady then readStderrStep st1 e.stderrData else st1

/-- The post-exit drain wait:
`wait_after_exit = 0 if remaining <= 0 else min(0.1, remaining)`. -/
def waitAfterExit (deadline now : ℚ) : ℚ :=
  if deadline - now ≤ 0 then 0 else min (1 / 10) (deadline - now)

/-- The idle-poll wait `wait = min(0.5, remaining)` (taken only when
`remaining > 0`). -/
def pollWaitSlice (deadline now : ℚ) : ℚ := min (1 / 2) (deadline - now)

/-- The `while True` loop of `_read_output_with_timeout`, one `IterEnv`
consumed per iteration.  The deadline check raises `TimeoutError`; any
raising `recv` is the other exception source; both are caught by the
surrounding `except`, which flushes and returns the exception. -/
def readOutputLoop (separateStderr : Bool) (deadline : ℚ) :
    List IterEnv → CaptureState → Option CaptureResult
  | [], _ => none
  | e :: rest, st =>
    if deadline < e.now then some (finishCapture st (some .timeoutErr))
    else if e.stdoutReady && e.recvFails then some (finishCapture st (some .channelErr))
    else
      let st2 := captureIterState separateStderr e st
      if e.stdoutReady || (separateStderr && e.stderrReady) then
        readOutputLoop separateStderr deadline rest st2
      else if e.exitReady then
        if e.postStdoutReady || (separateStderr && e.postStderrReady) then
          readOutputLoop separateStderr deadline rest st2
        else some (finishCapture st2 none)
      else readOutputLoop separateStderr deadline rest st2

/-- `Ssh.execute_command_output` (lines 156-168): run the capture, then
report `-1` when the loop ended with an exception, otherwise the
channel's real exit status. -/
def execute_command_output (separateStderr : Bool) (startTime maxExecTime : ℚ)
    (env : List IterEnv) (channelExitStatus : Int) :
    Option (Int × List (List Char) × List (List Char)) :=
  match readOutputLoop separateStderr (startTime + maxExecTime) env initCaptureState with
  | none => none
  | some r =>
    match r.exc with
    | some _ => some (-1, r.stdoutLines, r.stderrLines)
    | none => some (channelExitStatus, r.stdoutLines, r.stderrLines)

/-! ### Branch lemmas for the capture loop -/

theorem readOutputLoop_nil (sep : Bool) (deadline : ℚ) (st : CaptureState) :
    readOutputLoop sep deadline [] st = none := rfl

theorem readOutputLoop_cons (sep : Bool) (deadline : ℚ) (e : IterEnv)
    (rest : List IterEnv) (st : CaptureState) :
    readOutputLoop sep deadline (e :: rest) st =
      (if deadline < e.now then some (finishCapture st (some .timeoutErr))
      else if e.stdoutReady && e.recvFails then some (finishCapture st (some .channelErr))
      else
        let st2 := captureIterState sep e st
        if e.stdoutReady || (sep && e.stderrReady) then
          readOutputLoop sep deadline rest st2
        else if e.exitReady then
          if e.postStdoutReady || (sep && e.postStderrReady) then
            readOutputLoop sep deadline rest st2
          else some (finishCapture st2 none)
        else readOutputLoop sep deadline rest st2) := rfl

theorem readOutputLoop_timeout {sep : Bool} {deadline : ℚ} {e : IterEnv}
    (rest : List IterEnv) (st : CaptureState) (h : deadline < e.now) :
    readOutputLoop sep deadline (e :: rest) st =
      some (finishCapture st (some .timeoutErr)) := by
  rw [readOutputLoop_cons, if_pos h]

theorem readOutputLoop_recvFail {sep : Bool} {deadline : ℚ} {e : IterEnv}
    (rest : List IterEnv) (st : CaptureState) (h1 : ¬ deadline < e.now)
    (h2 : e.stdoutReady = true) (h3 : e.recvFails = true) :
    readOutputLoop sep deadline (e :: rest) st =
      some (finishCapture st (some .channelErr)) := by
  rw [readOutputLoop_cons, if_neg h1, if_pos (by simp [h2, h3])]

theorem readOutputLoop_continue_read {sep : Bool} {deadline : ℚ} {e : IterEnv}
    (rest : List IterEnv) (st : CaptureState) (h1 : ¬ deadline < e.now)
    (h2 : (e.stdoutReady && e.recvFails) = false)
    (h3 : (e.stdoutReady || (sep && e.stderrReady)) = true) :
    readOutputLoop sep deadline (e :: rest) st =
      readOutputLoop sep deadline rest (captureIterState sep e st) := by
  rw [readOutputLoop_cons, if_neg h1, if_neg (by simp [h2]), if_pos h3]

theorem readOutputLoop_continue_drain {sep : Bool} {deadline : ℚ} {e : IterEnv}
    (rest : List IterEnv) (st : CaptureState) (h1 : ¬ deadline < e.now)
    (h3 : (e.stdoutReady || (sep && e.stderrReady)) = false)
    (h4 : e.exitReady = true)
    (h5 : (e.postStdoutReady || (sep && e.postStderrReady)) = true) :
    readOutputLoop sep deadline (e :: rest) st =
      readOutputLoop sep deadline rest (captureIterState sep e st) := by
  have h2 : (e.stdoutReady && e.recvFails) = false := by
    have : e.stdoutReady = false := by
      cases hso : e.stdoutReady <;> simp [hso] at h3 ⊢
    simp [this]
  rw [readOutputLoop_cons, if_neg h1, if_neg (by simp [h2])]
  simp only [h3, h4, h5, Bool.false_eq_true, if_false, if_true]

theorem readOutputLoop_break {sep : Bool} {deadline : ℚ} {e : IterEnv}
    (rest : List IterEnv) (st : CaptureState) (h1 : ¬ deadline < e.now)
    (h3 : (e.stdoutReady || (sep && e.stderrReady)) = false)
    (h4 : e.exitReady = true)
    (h5 : (e.postStdoutReady || (sep && e.postStderrReady)) = false) :
    readOutputLoop sep deadline (e :: rest) st =
      some (finishCapture (captureIterState sep e st) none) := by
  have h2 : (e.stdoutReady && e.recvFails) = false := by
    have : e.stdoutReady = false := by
      cases hso : e.stdoutReady <;> simp [hso] at h3 ⊢
    simp [this]
  rw [readOutputLoop_cons, if_neg h1, if_neg (by simp [h2])]
  simp only [h3, h4, h5, Bool.false_eq_true, if_false, if_true]

theorem readOutputLoop_continue_sleep {sep : Bool} {deadline : ℚ} {e : IterEnv}
    (rest : List IterEnv) (st : CaptureState) (h1 : ¬ deadline < e.now)
    (h3 : (e.stdoutReady || (sep && e.stderrReady)) = false)
    (h4 : e.exitReady = false) :
    readOutputLoop sep deadline (e :: rest) st =
      readOutputLoop sep deadline rest (captureIterState sep e st) := by
  have h2 : (e.stdoutReady && e.recvFails) = false := by
    have : e.stdoutReady = false := by
      cases hso : e.stdoutReady <;> simp [hso] at h3 ⊢
    simp [this]
  rw [readOutputLoop_cons, if_neg h1, if_neg (by simp [h2])]
  simp only [h3, h4, Bool.false_eq_true, if_false]

/-- When no read happened this iteration the read phase leaves the state
unchanged. -/
theorem captureIterState_noRead {sep : Bool} {e : IterEnv} (st : CaptureState)
    (h : (e.stdoutReady || (sep && e.stderrReady)) = false) :
    captureIterState sep e st = st := by
  unfold captureIterState
  have hso : e.stdoutReady = false := by
    cases hso : e.stdoutReady <;> simp [hso] at h ⊢
  have hse : (sep && e.stderrReady) = false := by
    cases hse : sep && e.stderrReady <;> simp [hse] at h ⊢
  simp [hso, hse]

/-! ### Global properties of the capture loop -/

/-- On every termination path the returned result is the flush of the
state the loop actually accumulated: the fold of the per-iteration read
phase over the consumed prefix of the environment, with each stream's
pending fragment appended exactly once by the single `return` of the
taken path.  (This pins the returned line lists to the accumulated
state, so it fails for any loop that drops the pending fragment, flushes
it twice, or returns anything other than the accumulated lines.) -/
theorem readOutputLoop_flush_once : ∀ (env : List IterEnv) (sep : Bool) (deadline : ℚ)
    (st : CaptureState) (r : CaptureResult),
    readOutputLoop sep deadline env st = some r →
    ∃ pre suffix, env = pre ++ suffix ∧
      r = finishCapture
        (List.foldl (fun s e => captureIterState sep e s) st pre) r.exc := by
  intro env
  induction env with
  | nil =>
    intro sep deadline st r h
    simp [readOutputLoop_nil] at h
  | cons e rest ih =>
    intro sep deadline st r h
    by_cases h1 : deadline < e.now
    · rw [readOutputLoop_timeout rest st h1] at h
      obtain rfl := Option.some.inj h
      exact ⟨[], e :: rest, rfl, rfl⟩
    · by_cases h2 : (e.stdoutReady && e.recvFails) = true
      · have h2a : e.stdoutReady = true := by
          cases hx : e.stdoutReady <;> simp [hx] at h2 ⊢
        have h2b : e.recvFails = true := by
          cases hx : e.recvFails <;> simp [hx] at h2 ⊢
        rw [readOutputLoop_recvFail rest st h1 h2a h2b] at h
        obtain rfl := Option.some.inj h
        exact ⟨[], e :: rest, rfl, rfl⟩
      · have h2f : (e.stdoutReady && e.recvFails) = false := by
          cases hx : e.stdoutReady && e.recvFails
          · rfl
          · exact absurd hx h2
        by_cases h3 : (e.stdoutReady || (sep && e.stderrReady)) = true
        · rw [readOutputLoop_continue_read rest st h1 h2f h3] at h
          obtain ⟨pre, suffix, heq, hr⟩ := ih sep deadline _ r h
          exact ⟨e :: pre, suffix, by rw [heq]; rfl, by simpa [List.foldl_cons] using hr⟩
        · have h3f : (e.stdoutReady || (sep && e.stderrReady)) = false := by
            cases hx : e.stdoutReady || (sep && e.stderrReady)
            · rfl
            · exact absurd hx h3
          by_cases h4 : e.exitReady = true
          · by_cases h5 : (e.postStdoutReady || (sep && e.postStderrReady)) = true
            · rw [readOutputLoop_continue_drain rest st h1 h3f h4 h5] at h
              obtain ⟨pre, suffix, heq, hr⟩ := ih sep deadline _ r h
              exact ⟨e :: pre, suffix, by rw [heq]; rfl,
                by simpa [List.foldl_cons] using hr⟩
            · have h5f : (e.postStdoutReady || (sep && e.postStderrReady)) = false := by
                cases hx : e.postStdoutReady || (sep && e.postStderrReady)
                · rfl
                · exact absurd hx h5
              rw [readOutputLoop_break rest st h1 h3f h4 h5f] at h
              obtain rfl := Option.some.inj h
              exact ⟨[e], rest, rfl, rfl⟩
          · have h4f : e.exitReady = false := by
              cases hx : e.exitReady
              · rfl
              · exact absurd hx h4
            rw [readOutputLoop_continue_sleep rest st h1 h3f h4f] at h
            obtain ⟨pre, suffix, heq, hr⟩ := ih sep deadline _ r h
            exact ⟨e :: pre, suffix, by rw [heq]; rfl,
              by simpa [List.foldl_cons] using hr⟩

/-- Flushing appends exactly the pending fragment: character-wise, the
flushed lines are the accumulated lines followed by the pending text. -/
theorem finishCapture_flatten (st : CaptureState) (exc : Option CaptureExc) :
    (finishCapture st exc).stdoutLines.flatten =
        st.stdoutLines.flatten ++ st.stdoutPend ∧
      (finishCapture st exc).stderrLines.flatten =
        st.stderrLines.flatten ++ st.stderrPend :=
  ⟨flushPending_flatten _ _, flushPending_flatten _ _⟩

/-- With merge mode (`separate_stderr=False`) the loop never touches the
stderr buffers, so a run from stderr-empty state returns empty stderr. -/
theorem readOutputLoop_merge_stderr : ∀ (env : List IterEnv) (deadline : ℚ)
    (st : CaptureState) (r : CaptureResult),
    st.stderrLines = [] → st.stderrPend = [] →
    readOutputLoop false deadline env st = some r →
    r.stderrLines = [] := by
  intro env
  induction env with
  | nil =>
    intro deadline st r _ _ h
    simp [readOutputLoop_nil] at h
  | cons e rest ih =>
    intro deadline st r hL hP h
    have hstepL : (captureIterState false e st).stderrLines = [] := by
      unfold captureIterState
      by_cases hso : e.stdoutReady <;> simp [hso, readStdoutStep, hL]
    have hstepP : (captureIterState false e st).stderrPend = [] := by
      unfold captureIterState
      by_cases hso : e.stdoutReady <;> simp [hso, readStdoutStep, hP]
    by_cases h1 : deadline < e.now
    · rw [readOutputLoop_timeout rest st h1] at h
      obtain rfl := Option.some.inj h
      simp [finishCapture, flushPending, hL, hP]
    · by_cases h2 : (e.stdoutReady && e.recvFails) = true
      · have h2a : e.stdoutReady = true := by
          cases hx : e.stdoutReady <;> simp [hx] at h2 ⊢
        have h2b : e.recvFails = true := by
          cases hx : e.recvFails <;> simp [hx] at h2 ⊢
        rw [readOutputLoop_recvFail rest st h1 h2a h2b] at h
        obtain rfl := Option.some.inj h
        simp [finishCapture, flushPending, hL, hP]
      · have h2f : (e.stdoutReady && e.recvFails) = false := by
          cases hx : e.stdoutReady && e.recvFails
          · rfl
          · exact absurd hx h2
        by_cases h3 : (e.stdoutReady || (false && e.stderrReady)) = true
        · rw [readOutputLoop_continue_read rest st h1 h2f h3] at h
          exact ih deadline _ r hstepL hstepP h
        · have h3f : (e.stdoutReady || (false && e.stderrReady)) = false := by
            cases hx : e.stdoutReady || (false && e.stderrReady)
            · rfl
            · exact absurd hx h3
          by_cases h4 : e.exitReady = true
          · by_cases h5 : (e.postStdoutReady || (false && e.postStderrReady)) = true
            · rw [readOutputLoop_continue_drain rest st h1 h3f h4 h5] at h
              exact ih deadline _ r hstepL hstepP h
            · have h5f : (e.postStdoutReady || (false && e.postStderrReady)) = false := by
                cases hx : e.postStdoutReady || (false && e.postStderrReady)
                · rfl
                · exact absurd hx h5
              rw [readOutputLoop_break rest st h1 h3f h4 h5f] at h
              obtain rfl := Option.some.inj h
              simp [finishCapture, flushPending, hstepL, hstepP]
          · have h4f : e.exitReady = false := by
              cases hx : e.exitReady
              · rfl
              · exact absurd hx h4
            rw [readOutputLoop_continue_sleep rest st h1 h3f h4f] at h
            exact ih deadline _ r hstepL hstepP h

/-- A normal (exception-free) result can only come from the `break`
statement: some iteration within the deadline saw exit status signalled,
read nothing, and found both post-drain readiness checks negative. -/
theorem readOutputLoop_normal_exit : ∀ (env : List IterEnv) (sep : Bool) (deadline : ℚ)
    (st : CaptureState) (r : CaptureResult),
    readOutputLoop sep deadline env st = some r → r.exc = none →
    ∃ pre e rest st',
      env = pre ++ e :: rest ∧
      ¬ deadline < e.now ∧
      e.stdoutReady = false ∧ (sep && e.stderrReady) = false ∧
      e.exitReady = true ∧
      e.postStdoutReady = false ∧ (sep && e.postStderrReady) = false ∧
      r = finishCapture st' none := by
  intro env
  induction env with
  | nil =>
    intro sep deadline st r h _
    simp [readOutputLoop_nil] at h
  | cons e rest ih =>
    intro sep deadline st r h hexc
    by_cases h1 : deadline < e.now
    · rw [readOutputLoop_timeout rest st h1] at h
      obtain rfl := Option.some.inj h
      simp [finishCapture] at hexc
    · by_cases h2 : (e.stdoutReady && e.recvFails) = true
      · have h2a : e.stdoutReady = true := by
          cases hx : e.stdoutReady <;> simp [hx] at h2 ⊢
        have h2b : e.recvFails = true := by
          cases hx : e.recvFails <;> simp [hx] at h2 ⊢
        rw [readOutputLoop_recvFail rest st h1 h2a h2b] at h
        obtain rfl := Option.some.inj h
        simp [finishCapture] at hexc
      · have h2f : (e.stdoutReady && e.recvFails) = false := by
          cases hx : e.stdoutReady && e.recvFails
          · rfl
          · exact absurd hx h2
        by_cases h3 : (e.stdoutReady || (sep && e.stderrReady)) = true
        · rw [readOutputLoop_continue_read rest st h1 h2f h3] at h
          obtain ⟨pre, e', rest', st', heq, hc⟩ := ih sep deadline _ r h hexc
          exact ⟨e :: pre, e', rest', st', by rw [heq]; rfl, hc⟩
        · have h3f : (e.stdoutReady || (sep && e.stderrReady)) = false := by
            cases hx : e.stdoutReady || (sep && e.stderrReady)
            · rfl
            · exact absurd hx h3
          by_cases h4 : e.exitReady = true
          · by_cases h5 : (e.postStdoutReady || (sep && e.postStderrReady)) = true
            · rw [readOutputLoop_continue_drain rest st h1 h3f h4 h5] at h
              obtain ⟨pre, e', rest', st', heq, hc⟩ := ih sep deadline _ r h hexc
              exact ⟨e :: pre, e', rest', st', by rw [heq]; rfl, hc⟩
            · have h5f : (e.postStdoutReady || (sep && e.postStderrReady)) = false := by
                cases hx : e.postStdoutReady || (sep && e.postStderrReady)
                · rfl
                · exact absurd hx h5
              rw [readOutputLoop_break rest st h1 h3f h4 h5f] at h
              obtain rfl := Option.some.inj h
              have hso : e.stdoutReady = false := by
                cases hx : e.stdoutReady <;> simp [hx] at h3f ⊢
              have hse : (sep && e.stderrReady) = false := by
                cases hx : sep && e.stderrReady <;> simp [hx] at h3f ⊢
              have hpo : e.postStdoutReady = false := by
                cases hx : e.postStdoutReady <;> simp [hx] at h5f ⊢
              have hpe : (sep && e.postStderrReady) = false := by
                cases hx : sep && e.postStderrReady <;> simp [hx] at h5f ⊢
              exact ⟨[], e, rest, captureIterState sep e st, rfl, h1, hso, hse, h4, hpo,
                hpe, rfl⟩
          · have h4f : e.exitReady = false := by
              cases hx : e.exitReady
              · rfl
              · exact absurd hx h4
            rw [readOutputLoop_continue_sleep rest st h1 h3f h4f] at h
            obtain ⟨pre, e', rest', st', heq, hc⟩ := ih sep deadline _ r h hexc
            exact ⟨e :: pre, e', rest', st', by rw [heq]; rfl, hc⟩

/-- The post-exit drain wait is at most 0.1 s, never more than the time
left until the deadline, and never negative. -/
theorem waitAfterExit_bounds (deadline now : ℚ) :
    waitAfterExit deadline now ≤ 1 / 10 ∧
      (0 ≤ deadline - now → waitAfterExit deadline now ≤ deadline - now) ∧
      0 ≤ waitAfterExit deadline now := by
  unfold waitAfterExit
  split_ifs with h
  · exact ⟨by norm_num, fun h2 => h2, le_refl 0⟩
  · refine ⟨min_le_left _ _, fun _ => min_le_right _ _, ?_⟩
    have : (0 : ℚ) < deadline - now := by linarith [not_le.mp h]
    exact le_min (by norm_num) (le_of_lt this)

/-! ### `Ssh._load_private_key`

The four paramiko key classes are fixed in the source; what each class's
`from_private_key_file` does to the given file is environment input,
modelled as a function from the algorithm to `Except` (error message or
decoded key). -/

inductive KeyAlg where
  | rsaKey : KeyAlg
  | ecdsaKey : KeyAlg
  | ed25519Key : KeyAlg
  | dssKey : KeyAlg
deriving DecidableEq

/-- The `key_loaders` list: `[RSAKey, ECDSAKey, Ed25519Key, DSSKey]`. -/
def keyLoaders : List KeyAlg := [.rsaKey, .ecdsaKey, .ed25519Key, .dssKey]

/-- `key_loader.__name__`. -/
def keyAlgName : KeyAlg → String
  | .rsaKey => "RSAKey"
  | .ecdsaKey => "ECDSAKey"
  | .ed25519Key => "Ed25519Key"
  | .dssKey => "DSSKey"

/-- The aggregated `SSHException` message raised when every decoder
failed, built exactly as in the source f-string. -/
def keyErrorMessage (pkeyPath : String) (loadErrors : List String) : String :=
  "Unsupported or invalid private key file '" ++ pkeyPath ++
    "'. Tried key types: " ++ String.intercalate ", " (keyLoaders.map keyAlgName) ++
    ". Details: " ++ String.intercalate " | " loadErrors

/-- The `for key_loader in key_loaders` loop with the `load_errors`
accumulator (`f"{key_loader.__name__}: {ex}"` per failure). -/
def loadKeyGo {K : Type} (tryLoad : KeyAlg → Except String K) (pkeyPath : String) :
    List KeyAlg → List String → Except String K
  | [], errs => .error (keyErrorMessage pkeyPath errs)
  | k :: rest, errs =>
    match tryLoad k with
    | .ok key => .ok key
    | .error e => loadKeyGo tryLoad pkeyPath rest (errs ++ [keyAlgName k ++ ": " ++ e])

/-- `Ssh._load_private_key(pkey_path)`, with the behaviour of the
paramiko decoders on that file supplied as `tryLoad`. -/
def load_private_key {K : Type} (tryLoad : KeyAlg → Except String K)
    (pkeyPath : String) : Except String K :=
  loadKeyGo tryLoad pkeyPath keyLoaders []

theorem loadKeyGo_first_ok {K : Type} (tryLoad : KeyAlg → Except String K)
    (pkeyPath : String) : ∀ (algs : List KeyAlg) (pre : List KeyAlg) (k : KeyAlg)
    (post : List KeyAlg) (key : K) (errs : List String),
    algs = pre ++ k :: post →
    (∀ a ∈ pre, ∃ e, tryLoad a = .error e) →
    tryLoad k = .ok key →
    loadKeyGo tryLoad pkeyPath algs errs = .ok key := by
  intro algs
  induction algs with
  | nil =>
    intro pre k post key errs heq _ _
    exact absurd heq (by simp)
  | cons a rest ih =>
    intro pre k post key errs heq hpre hk
    cases pre with
    | nil =>
      simp at heq
      obtain ⟨rfl, _⟩ := heq
      unfold loadKeyGo
      rw [hk]
    | cons p pre' =>
      simp at heq
      obtain ⟨rfl, heq'⟩ := heq
      obtain ⟨e, he⟩ := hpre a (by simp)
      unfold loadKeyGo
      rw [he]
      exact ih pre' k post key _ heq' (fun x hx => hpre x (by simp [hx])) hk

theorem loadKeyGo_all_fail {K : Type} (tryLoad : KeyAlg → Except String K)
    (pkeyPath : String) (errf : KeyAlg → String) : ∀ (algs : List KeyAlg)
    (errs : List String),
    (∀ a ∈ algs, tryLoad a = .error (errf a)) →
    loadKeyGo tryLoad pkeyPath algs errs =
      .error (keyErrorMessage pkeyPath
        (errs ++ algs.map (fun a => keyAlgName a ++ ": " ++ errf a))) := by
  intro algs
  induction algs with
  | nil =>
    intro errs _
    simp [loadKeyGo]
  | cons a rest ih =>
    intro errs hall
    have step : loadKeyGo tryLoad pkeyPath (a :: rest) errs =
        loadKeyGo tryLoad pkeyPath rest (errs ++ [keyAlgName a ++ ": " ++ errf a]) := by
      conv_lhs => unfold loadKeyGo
      rw [hall a (by simp)]
    rw [step, ih _ (fun x hx => hall x (by simp [hx]))]
    simp

theorem loadKeyGo_error_of_all_fail {K : Type} (tryLoad : KeyAlg → Except String K)
    (pkeyPath : String) : ∀ (algs : List KeyAlg) (errs : List String),
    (∀ a ∈ algs, ∃ e, tryLoad a = .error e) →
    ∃ m, loadKeyGo tryLoad pkeyPath algs errs = .error m := by
  intro algs
  induction algs with
  | nil =>
    intro errs _
    exact ⟨_, rfl⟩
  | cons a rest ih =>
    intro errs hall
    obtain ⟨e, he⟩ := hall a (by simp)
    unfold loadKeyGo
    rw [he]
    exact ih _ (fun x hx => hall x (by simp [hx]))

theorem loadKeyGo_ok_of_some_ok {K : Type} (tryLoad : KeyAlg → Except String K)
    (pkeyPath : String) : ∀ (algs : List KeyAlg) (errs : List String),
    (∃ a ∈ algs, ∃ key, tryLoad a = .ok key) →
    ∃ key, loadKeyGo tryLoad pkeyPath algs errs = .ok key := by
  intro algs
  induction algs with
  | nil =>
    intro errs h
    simp at h
  | cons a rest ih =>
    intro errs h
    unfold loadKeyGo
    cases ha : tryLoad a with
    | ok key => exact ⟨key, rfl⟩
    | error e =>
      obtain ⟨x, hx, key, hkey⟩ := h
      rcases List.mem_cons.mp hx with rfl | hx'
      · rw [ha] at hkey; cases hkey
      · exact ih _ ⟨x, hx', key, hkey⟩

/-! ### `Ssh.__enter__` — the connection retry loop

`for _ in range(self._retries): try: connect; break; except: log(debug);
sleep(interval)` with the `else: raise` clause.  Whether attempt number
`i` (0-based) succeeds is environment input `connectOk i`.  The trace
records how many `connect` calls and how many `sleep` calls were made. -/

structure ConnectTrace where
  attemptsMade : ℕ
  sleepsDone : ℕ
  outcome : Except String Unit

/-- The retry loop body, `i` attempts already made (and failed). -/
def enterGo (connectOk : ℕ → Bool) (targetIp : String) : ℕ → ℕ → ConnectTrace
  | i, 0 => ⟨i, i, .error ("SSH connection to " ++ targetIp ++ " failed")⟩
  | i, n + 1 =>
    if connectOk i then ⟨i + 1, i, .ok ()⟩
    else enterGo connectOk targetIp (i + 1) n

/-- `Ssh.__enter__`'s retry loop with `retries` total attempts. -/
def ssh_enter (connectOk : ℕ → Bool) (targetIp : String) (retries : ℕ) : ConnectTrace :=
  enterGo connectOk targetIp 0 retries

/-- Defaults from `Ssh.__init__`: `n_retries: int = 5`,
`retry_interval: int = 1`. -/
def defaultNRetries : ℕ := 5

def defaultRetryInterval : ℚ := 1

theorem enterGo_all_fail (connectOk : ℕ → Bool) (targetIp : String) :
    ∀ (n i : ℕ), (∀ j, i ≤ j → j < i + n → connectOk j = false) →
    enterGo connectOk targetIp i n =
      ⟨i + n, i + n, .error ("SSH connection to " ++ targetIp ++ " failed")⟩ := by
  intro n
  induction n with
  | zero => intro i _; rfl
  | succ n ih =>
    intro i hall
    unfold enterGo
    rw [hall i (le_refl i) (by omega),
      ih (i + 1) (fun j h1 h2 => hall j (by omega) (by omega))]
    have heq : i + 1 + n = i + (n + 1) := by omega
    rw [heq]
    simp

theorem enterGo_first_ok (connectOk : ℕ → Bool) (targetIp : String) :
    ∀ (n i k : ℕ), k < n → connectOk (i + k) = true →
    (∀ j, i ≤ j → j < i + k → connectOk j = false) →
    enterGo connectOk targetIp i n = ⟨i + k + 1, i + k, .ok ()⟩ := by
  intro n
  induction n with
  | zero => intro i k hk; omega
  | succ n ih =>
    intro i k hk hok hpre
    unfold enterGo
    cases k with
    | zero =>
      simp only [Nat.add_zero] at hok ⊢
      rw [hok]
      simp
    | succ k' =>
      rw [hpre i (le_refl i) (by omega)]
      have hrec := ih (i + 1) k' (by omega)
        (by rw [show i + 1 + k' = i + (k' + 1) by omega]; exact hok)
        (fun j h1 h2 => hpre j (by omega) (by omega))
      rw [hrec]
      have h1 : i + 1 + k' + 1 = i + (k' + 1) + 1 := by omega
      have h2 : i + 1 + k' = i + (k' + 1) := by omega
      rw [h1, h2]
      simp

theorem enterGo_attempts_le (connectOk : ℕ → Bool) (targetIp : String) :
    ∀ (n i : ℕ), (enterGo connectOk targetIp i n).attemptsMade ≤ i + n := by
  intro n
  induction n with
  | zero => intro i; simp [enterGo]
  | succ n ih =>
    intro i
    unfold enterGo
    by_cases h : connectOk i = true
    · simp only [h, if_true]
      omega
    · have hf : connectOk i = false := by
        cases hx : connectOk i
        · rfl
        · exact absurd hx h
      rw [hf]
      simp only [Bool.false_eq_true, if_false]
      have := ih (i + 1)
      omega

/-! ### `command_with_etc` — shell quoting

`shlex.quote` from the Python standard library, over `List Char`: return
`''` for the empty string, the string itself when every character is in
the safe class of letters, digits, underscore and `@ % + = : , . -` and slash, and otherwise wrap in single
quotes with each embedded `'` re-encoded as `'"'"'`. -/

def squote : Char := Char.ofNat 39

def dquoteChar : Char := Char.ofNat 34

def shlexSafeChar (c : Char) : Bool :=
  c.isAlpha || c.isDigit || c = '_' ||
    c = '@' || c = '%' || c = '+' || c = '=' || c = ':' || c = ',' ||
    c = '.' || c = '/' || c = '-'

def shlexQuoteEsc (c : Char) : List Char :=
  if c = squote then [squote, dquoteChar, squote, dquoteChar, squote] else [c]

def shlexQuote (s : List Char) : List Char :=
  if s = [] then [squote, squote]
  else if s.all shlexSafeChar then s
  else squote :: (s.flatMap shlexQuoteEsc ++ [squote])

/-- The fixed profile-sourcing front half of the wrapped command
(`"[ -r /etc/profile ] && . /etc/profile >/dev/null 2>&1; "`): source
`/etc/profile` only when readable, discard its output and errors, then
run the original command after the `;`. -/
def etcProfileGuard : List Char :=
  "[ -r /etc/profile ] && . /etc/profile >/dev/null 2>&1; ".data

/-- `command_with_etc(cmd)` from `Ssh.execute_command_output`:
`f"sh -lc {shlex.quote(inner)}"` with
`inner = "[ -r /etc/profile ] && ...; " + cmd`. -/
def command_with_etc (cmd : List Char) : List Char :=
  "sh -lc ".data ++ shlexQuote (etcProfileGuard ++ cmd)

/-! Modelled from the spec: one layer of POSIX shell interpretation of a
single word — quote removal with no expansions.  The shell itself is an
external collaborator (the remote `sh`), not code of this repository, so
its word parsing is modelled here: outside quotes only safe characters
are accepted as literals (anything else would be a metacharacter or
start a new word), inside single quotes every character up to the next
`'` is literal, inside double quotes every character except the
expansion triggers `$`, backquote and backslash is literal. -/

inductive ShMode where
  | unquoted : ShMode
  | insingle : ShMode
  | indouble : ShMode

def shellDequoteAux : ShMode → List Char → Option (List Char)
  | .unquoted, [] => some []
  | .unquoted, c :: r =>
    if c = squote then shellDequoteAux .insingle r
    else if c = dquoteChar then shellDequoteAux .indouble r
    else if shlexSafeChar c then (shellDequoteAux .unquoted r).map (c :: ·)
    else none
  | .insingle, [] => none
  | .insingle, c :: r =>
    if c = squote then shellDequoteAux .unquoted r
    else (shellDequoteAux .insingle r).map (c :: ·)
  | .indouble, [] => none
  | .indouble, c :: r =>
    if c = dquoteChar then shellDequoteAux .unquoted r
    else if c = '$' || c = '\\' || c = Char.ofNat 96 then none
    else (shellDequoteAux .indouble r).map (c :: ·)

/-- Undo one layer of shell quoting on a single word. -/
def shellDequoteWord (s : List Char) : Option (List Char) :=
  shellDequoteAux .unquoted s

theorem shDq_un_squote (r : List Char) :
    shellDequoteAux .unquoted (squote :: r) = shellDequoteAux .insingle r := by
  simp [shellDequoteAux]

theorem shDq_un_dquote (r : List Char) :
    shellDequoteAux .unquoted (dquoteChar :: r) = shellDequoteAux .indouble r := by
  have h : dquoteChar ≠ squote := by decide
  simp [shellDequoteAux, h]

theorem shDq_un_safe {c : Char} (r : List Char) (h3 : shlexSafeChar c = true) :
    shellDequoteAux .unquoted (c :: r) = (shellDequoteAux .unquoted r).map (c :: ·) := by
  have h1 : c ≠ squote := by
    intro h; subst h; revert h3; decide
  have h2 : c ≠ dquoteChar := by
    intro h; subst h; revert h3; decide
  simp [shellDequoteAux, h1, h2, h3]

theorem shDq_sg_squote (r : List Char) :
    shellDequoteAux .insingle (squote :: r) = shellDequoteAux .unquoted r := by
  simp [shellDequoteAux]

theorem shDq_sg_other {c : Char} (r : List Char) (h : c ≠ squote) :
    shellDequoteAux .insingle (c :: r) = (shellDequoteAux .insingle r).map (c :: ·) := by
  simp [shellDequoteAux, h]

theorem shDq_db_dquote (r : List Char) :
    shellDequoteAux .indouble (dquoteChar :: r) = shellDequoteAux .unquoted r := by
  simp [shellDequoteAux]

theorem shDq_db_squote (r : List Char) :
    shellDequoteAux .indouble (squote :: r) = (shellDequoteAux .indouble r).map (squote :: ·) := by
  have h1 : squote ≠ dquoteChar := by decide
  have h2 : ¬ ((squote = '$' ∨ squote = '\\') ∨ squote = Char.ofNat 96) := by decide
  simp [shellDequoteAux, h1, h2]

theorem shellDequoteAux_insingle_body (s : List Char) (r : List Char) :
    shellDequoteAux .insingle (s.flatMap shlexQuoteEsc ++ (squote :: r)) =
      (shellDequoteAux .unquoted r).map (s ++ ·) := by
  induction s with
  | nil =>
    simp only [List.flatMap_nil, List.nil_append]
    rw [shDq_sg_squote]
    cases shellDequoteAux .unquoted r <;> simp
  | cons c s' ih =>
    rw [List.flatMap_cons]
    by_cases hc : c = squote
    · subst hc
      rw [show shlexQuoteEsc squote = [squote, dquoteChar, squote, dquoteChar, squote] from by
        simp [shlexQuoteEsc]]
      simp only [List.cons_append, List.append_assoc, List.nil_append]
      rw [shDq_sg_squote, shDq_un_dquote, shDq_db_squote, shDq_db_dquote, shDq_un_squote, ih]
      cases shellDequoteAux .unquoted r <;> simp
    · rw [show shlexQuoteEsc c = [c] from by simp [shlexQuoteEsc, hc]]
      simp only [List.cons_append, List.nil_append]
      rw [shDq_sg_other _ hc, ih]
      cases shellDequoteAux .unquoted r <;> simp

theorem shellDequoteAux_safe (s : List Char) (h : s.all shlexSafeChar = true) :
    shellDequoteAux .unquoted s = some s := by
  induction s with
  | nil => rfl
  | cons c s' ih =>
    simp only [List.all_cons, Bool.and_eq_true] at h
    rw [shDq_un_safe _ h.1, ih h.2]
    rfl

/-- Round trip: undoing one layer of shell interpretation on
`shlex.quote(s)` gives back `s` verbatim, for every string `s`. -/
theorem shellDequoteWord_shlexQuote (s : List Char) :
    shellDequoteWord (shlexQuote s) = some s := by
  unfold shlexQuote
  by_cases h0 : s = []
  · subst h0
    rw [if_pos rfl]
    show shellDequoteAux .unquoted (squote :: [squote]) = some []
    rw [shDq_un_squote, shDq_sg_squote]
    rfl
  · rw [if_neg h0]
    by_cases hsafe : s.all shlexSafeChar = true
    · rw [if_pos hsafe]
      exact shellDequoteAux_safe s hsafe
    · rw [if_neg hsafe]
      unfold shellDequoteWord
      rw [show s.flatMap shlexQuoteEsc ++ [squote] =
        s.flatMap shlexQuoteEsc ++ (squote :: []) from rfl]
      rw [shDq_un_squote, shellDequoteAux_insingle_body,
        show shellDequoteAux .unquoted [] = some [] from rfl]
      simp

/-! ### Further helper lemmas used by the claim theorems -/

theorem enterGo_ok_of_exists (connectOk : ℕ → Bool) (targetIp : String) :
    ∀ (n i : ℕ), (∃ k, k < n ∧ connectOk (i + k) = true) →
    (enterGo connectOk targetIp i n).outcome = .ok () := by
  intro n
  induction n with
  | zero =>
    rintro i ⟨k, hk, _⟩
    omega
  | succ n ih =>
    rintro i ⟨k, hk, hok⟩
    unfold enterGo
    by_cases hc : connectOk i = true
    · simp only [hc, if_true]
    · have hf : connectOk i = false := by
        cases hx : connectOk i
        · rfl
        · exact absurd hx hc
      rw [hf]
      simp only [Bool.false_eq_true, if_false]
      cases k with
      | zero =>
        simp only [Nat.add_zero] at hok
        exact absurd hok hc
      | succ k' =>
        exact ih (i + 1) ⟨k', by omega,
          by rw [show i + 1 + k' = i + (k' + 1) by omega]; exact hok⟩

theorem execute_merge_stderr_empty (startTime maxExecTime : ℚ) (env : List IterEnv)
    (channelExitStatus : Int) (v : Int × List (List Char) × List (List Char))
    (h : execute_command_output false startTime maxExecTime env channelExitStatus = some v) :
    v.2.2 = [] := by
  unfold execute_command_output at h
  cases hr : readOutputLoop false (startTime + maxExecTime) env initCaptureState with
  | none =>
    rw [hr] at h
    exact Option.noConfusion h
  | some r =>
    rw [hr] at h
    have hempty : r.stderrLines = [] :=
      readOutputLoop_merge_stderr env (startTime + maxExecTime) initCaptureState r rfl rfl hr
    have h2 : (match r.exc with
        | some _ => some ((-1 : Int), r.stdoutLines, r.stderrLines)
        | none => some (channelExitStatus, r.stdoutLines, r.stderrLines)) = some v := h
    cases hexc : r.exc with
    | some e2 =>
      rw [hexc] at h2
      obtain rfl := Option.some.inj h2
      simpa using hempty
    | none =>
      rw [hexc] at h2
      obtain rfl := Option.some.inj h2
      simpa using hempty

/-- Demo key-loader behaviours used by the key-loader witness. -/
def tryLoadDemo : KeyAlg → Except String Nat
  | .rsaKey => .error "encoding error"
  | .ecdsaKey => .ok 42
  | .ed25519Key => .error "not ed25519"
  | .dssKey => .error "not dss"

def allFailReasons : KeyAlg → String
  | .rsaKey => "not a valid RSA private key file"
  | .ecdsaKey => "Invalid key"
  | .ed25519Key => "Invalid key data"
  | .dssKey => "not a valid DSA private key file"

def tryLoadAllFailDemo : KeyAlg → Except String Nat :=
  fun a => .error (allFailReasons a)

/-- Demo connect behaviour: attempts 0 and 1 fail, attempt 2 succeeds. -/
def connectOkDemo : ℕ → Bool := fun i => i == 2

/-! ### Claim theorems -/

/-- C1 counterexample: splitting the UTF-8 bytes of "é\n"
(`C3 A9 0A`) inside the two-byte character, into chunks `[C3]` and
`[A9, 0A]`, makes the reassembler emit two replacement characters where
one-shot delivery emits the decoded character, so the completed lines
differ — per-chunk `decode(errors="replace")` is not invariant under
splits inside a multi-byte encoded character. -/
theorem c1_chunk_split_counterexample :
    ¬ (flushPending (runByteChunks [[0xC3], [0xA9, 0x0A]]).1
          (runByteChunks [[0xC3], [0xA9, 0x0A]]).2 =
        flushPending (runByteChunks [[0xC3, 0xA9, 0x0A]]).1
          (runByteChunks [[0xC3, 0xA9, 0x0A]]).2) := by
  decide

/-- C1 (amended): for every byte stream and every way of splitting it
into successive chunks at encoded-character boundaries — i.e. such that
the permissive decode distributes over the chunks, which covers every
split of ASCII output and in particular splits in the middle of a
`"\r\n"` terminator — feeding the chunks one at a time through
`_iter_channel_lines_from_bytes` (threading the pending fragment,
starting empty) and finally flushing yields exactly the lines of
delivering the whole stream as one chunk and flushing.  A split inside a
multi-byte encoded character violates the distribution hypothesis and
can change the lines. -/
theorem c1_chunked_reassembly_eq_one_shot (chunks : List (List Nat))
    (hdist : utf8DecodeReplace chunks.flatten =
      (chunks.map utf8DecodeReplace).flatten) :
    flushPending (runByteChunks chunks).1 (runByteChunks chunks).2 =
      flushPending (runByteChunks [chunks.flatten]).1
        (runByteChunks [chunks.flatten]).2 := by
  rw [runByteChunks_eq_text, runByteChunks_eq_text]
  by_cases h : chunks = []
  · subst h
    decide
  · rw [runTextFrom_flush _ _ (by simpa using h),
      runTextFrom_flush _ _ (by simp)]
    simp [hdist]

theorem c1_chunked_reassembly_witness :
    utf8DecodeReplace ([[97], [13], [10, 98]] : List (List Nat)).flatten =
        (([[97], [13], [10, 98]] : List (List Nat)).map utf8DecodeReplace).flatten ∧
      flushPending (runByteChunks [[97], [13], [10, 98]]).1
          (runByteChunks [[97], [13], [10, 98]]).2 =
        flushPending (runByteChunks [([[97], [13], [10, 98]] : List (List Nat)).flatten]).1
          (runByteChunks [([[97], [13], [10, 98]] : List (List Nat)).flatten]).2 :=
  ⟨by decide, c1_chunked_reassembly_eq_one_shot [[97], [13], [10, 98]] (by decide)⟩

/-- C2: the capture loop terminates with a normal (non-exception)
outcome only at an iteration that, within the deadline, read no data,
saw the exit status signalled, and found both post-drain readiness
re-checks clear; the post-exit drain wait is at most 0.1 s and no more
than the remaining time to the deadline; and when either stream still
has data after that wait, the loop performs another iteration instead of
terminating. -/
theorem c2_exit_drain_guarantee :
    (∀ (env : List IterEnv) (sep : Bool) (deadline : ℚ) (st : CaptureState)
      (r : CaptureResult),
      readOutputLoop sep deadline env st = some r → r.exc = none →
      ∃ pre e rest st',
        env = pre ++ e :: rest ∧ ¬ deadline < e.now ∧
        e.stdoutReady = false ∧ (sep && e.stderrReady) = false ∧
        e.exitReady = true ∧
        e.postStdoutReady = false ∧ (sep && e.postStderrReady) = false ∧
        r = finishCapture st' none) ∧
    (∀ deadline now : ℚ, waitAfterExit deadline now ≤ 1 / 10 ∧
      (0 ≤ deadline - now → waitAfterExit deadline now ≤ deadline - now)) ∧
    (∀ (sep : Bool) (deadline : ℚ) (e : IterEnv) (rest : List IterEnv)
      (st : CaptureState),
      ¬ deadline < e.now →
      (e.stdoutReady || (sep && e.stderrReady)) = false →
      e.exitReady = true →
      (e.postStdoutReady || (sep && e.postStderrReady)) = true →
      readOutputLoop sep deadline (e :: rest) st =
        readOutputLoop sep deadline rest (captureIterState sep e st)) :=
  ⟨readOutputLoop_normal_exit,
    fun d n => ⟨(waitAfterExit_bounds d n).1, (waitAfterExit_bounds d n).2.1⟩,
    fun _ _ _ rest st h1 h3 h4 h5 => readOutputLoop_continue_drain rest st h1 h3 h4 h5⟩

theorem c2_exit_drain_witness : ∃ pre e rest st',
    ([⟨0, false, [], false, false, [], true, false, false⟩] : List IterEnv) =
        pre ++ e :: rest ∧
      ¬ (10 : ℚ) < e.now ∧
      e.stdoutReady = false ∧ (true && e.stderrReady) = false ∧
      e.exitReady = true ∧
      e.postStdoutReady = false ∧ (true && e.postStderrReady) = false ∧
      finishCapture initCaptureState none = finishCapture st' none :=
  c2_exit_drain_guarantee.1 [⟨0, false, [], false, false, [], true, false, false⟩] true 10
    initCaptureState (finishCapture initCaptureState none) (by decide) (by decide)

/-- C3: an iteration whose wall-clock reading exceeds the deadline
aborts the capture at once with a timeout exception and the lines
captured so far (flushed); and whenever capture ended with the timeout
exception, `execute_command_output` returns the sentinel exit status -1
— independently of the channel's real exit status — together with those
captured lines. -/
theorem c3_timeout_sentinel :
    (∀ (sep : Bool) (deadline : ℚ) (e : IterEnv) (rest : List IterEnv)
      (st : CaptureState), deadline < e.now →
      readOutputLoop sep deadline (e :: rest) st =
        some (finishCapture st (some .timeoutErr))) ∧
    (∀ (sep : Bool) (startTime maxExecTime : ℚ) (env : List IterEnv)
      (channelExitStatus : Int) (r : CaptureResult),
      readOutputLoop sep (startTime + maxExecTime) env initCaptureState = some r →
      r.exc = some .timeoutErr →
      execute_command_output sep startTime maxExecTime env channelExitStatus =
        some (-1, r.stdoutLines, r.stderrLines)) := by
  constructor
  · intro sep deadline e rest st h
    exact readOutputLoop_timeout rest st h
  · intro sep s m env ex r h hexc
    simp only [execute_command_output, h, hexc]

theorem c3_timeout_sentinel_witness :
    execute_command_output true 0 10
        [⟨100, true, [104, 105], false, false, [], true, false, false⟩] 7 =
      some (-1, (finishCapture initCaptureState (some .timeoutErr)).stdoutLines,
        (finishCapture initCaptureState (some .timeoutErr)).stderrLines) :=
  c3_timeout_sentinel.2 true 0 10
    [⟨100, true, [104, 105], false, false, [], true, false, false⟩] 7
    (finishCapture initCaptureState (some .timeoutErr))
    (by rw [show (0 : ℚ) + 10 = 10 from by norm_num]; decide) (by decide)

/-- C4 counterexample: after the chunks `[C3]` and `[A9, 0A]` (the bytes
of "é\n" split inside the character), completed lines plus pending
fragment spell two replacement characters and a newline, while the
permissive decode of all bytes received so far is "é\n" — the invariant
as stated fails when a chunk boundary cuts a multi-byte character. -/
theorem c4_decode_invariant_counterexample :
    ¬ ((runByteChunks [[0xC3], [0xA9, 0x0A]]).1.flatten ++
          (runByteChunks [[0xC3], [0xA9, 0x0A]]).2 =
        utf8DecodeReplace ([[0xC3], [0xA9, 0x0A]] : List (List Nat)).flatten) := by
  decide

/-- C4 (amended): after every reassembly step, the concatenation of all
completed lines plus the current pending fragment equals the previous
pending fragment plus the permissive decode of the step's own bytes —
cumulatively, the concatenation of the per-chunk decodes — with no
characters dropped or duplicated; and on every termination path of the
capture loop (normal completion, timeout, or capture-level failure) the
returned result is exactly the flush of the state accumulated by the
read phases over the consumed iterations: each stream's pending fragment
is appended to its completed lines exactly once before the result is
returned, so trailing unterminated output — concretely, a final
unterminated `"par"` on either the timeout path or the normal path —
appears in the returned lines. -/
theorem c4_conservation_and_flush :
    (∀ (data : List Nat) (pending : List Char),
      (iter_channel_lines_from_bytes data pending).1.flatten ++
          (iter_channel_lines_from_bytes data pending).2 =
        pending ++ utf8DecodeReplace data) ∧
    (∀ chunks : List (List Nat),
      (runByteChunks chunks).1.flatten ++ (runByteChunks chunks).2 =
        (chunks.map utf8DecodeReplace).flatten) ∧
    (∀ (env : List IterEnv) (sep : Bool) (deadline : ℚ) (st : CaptureState)
      (r : CaptureResult),
      readOutputLoop sep deadline env st = some r →
      ∃ pre suffix, env = pre ++ suffix ∧
        r = finishCapture
          (List.foldl (fun s e => captureIterState sep e s) st pre) r.exc) ∧
    (∀ (st : CaptureState) (exc : Option CaptureExc),
      (finishCapture st exc).stdoutLines.flatten =
          st.stdoutLines.flatten ++ st.stdoutPend ∧
        (finishCapture st exc).stderrLines.flatten =
          st.stderrLines.flatten ++ st.stderrPend) ∧
    (readOutputLoop true 10
        [⟨0, true, [112, 97, 114], false, false, [], false, false, false⟩,
          ⟨100, false, [], false, false, [], false, false, false⟩]
        initCaptureState =
      some ⟨["par".data], [], some .timeoutErr⟩) ∧
    (readOutputLoop true 10
        [⟨0, true, [112, 97, 114], false, false, [], false, false, false⟩,
          ⟨1, false, [], false, false, [], true, false, false⟩]
        initCaptureState =
      some ⟨["par".data], [], none⟩) :=
  ⟨iter_step_conservation, runByteChunks_conservation, readOutputLoop_flush_once,
    finishCapture_flatten, by decide, by decide⟩

theorem c4_conservation_witness : ∃ pre suffix,
    ([⟨0, true, [112, 97, 114], false, false, [], false, false, false⟩,
        ⟨100, false, [], false, false, [], false, false, false⟩] : List IterEnv) =
        pre ++ suffix ∧
      (⟨["par".data], [], some .timeoutErr⟩ : CaptureResult) =
        finishCapture
          (List.foldl (fun s e => captureIterState true e s) initCaptureState pre)
          (⟨["par".data], [], some .timeoutErr⟩ : CaptureResult).exc :=
  c4_conservation_and_flush.2.2.1
    [⟨0, true, [112, 97, 114], false, false, [], false, false, false⟩,
      ⟨100, false, [], false, false, [], false, false, false⟩]
    true 10 initCaptureState ⟨["par".data], [], some .timeoutErr⟩ (by decide)

/-- C5 counterexample: the claimed equivalence "stderr lines is empty
iff merge mode was selected" is false — with separate capture selected a
command that writes nothing to stderr still yields an empty stderr
sequence. -/
theorem c5_stderr_iff_counterexample :
    ¬ (∀ (sep : Bool) (startTime maxExecTime : ℚ) (env : List IterEnv)
        (channelExitStatus : Int) (v : Int × List (List Char) × List (List Char)),
        execute_command_output sep startTime maxExecTime env channelExitStatus = some v →
        (v.2.2 = [] ↔ sep = false)) := by
  intro h
  have h1 := h true 0 10 [⟨0, false, [], false, false, [], true, false, false⟩] 0 (0, [], [])
    (by
      unfold execute_command_output
      rw [show (0 : ℚ) + 10 = 10 from by norm_num]
      decide)
  have h2 := h1.mp rfl
  exact Bool.noConfusion h2

/-- C5 (amended): with merge mode (`separate_stderr=False`) the returned
stderr-lines sequence is always empty; with separate capture a command
writing to both streams yields its stdout lines and stderr lines in the
respective sequences (the `echo out; echo err 1>&2; exit 7` scenario:
exit 7, stdout "out", stderr "err"); the same command under merge mode,
where the channel delivers both streams as stdout bytes, yields exit 7,
both lines in stdout, and an empty stderr sequence. -/
theorem c5_stderr_modes :
    (∀ (startTime maxExecTime : ℚ) (env : List IterEnv)
      (channelExitStatus : Int) (v : Int × List (List Char) × List (List Char)),
      execute_command_output false startTime maxExecTime env channelExitStatus = some v →
      v.2.2 = []) ∧
    (execute_command_output true 0 30
        [⟨1, true, "out\n".data.map Char.toNat, false, true,
            "err\n".data.map Char.toNat, false, false, false⟩,
          ⟨2, false, [], false, false, [], true, false, false⟩] 7 =
      some (7, ["out\n".data], ["err\n".data])) ∧
    (execute_command_output false 0 30
        [⟨1, true, ("out\nerr\n").data.map Char.toNat, false, false, [], false, false,
            false⟩,
          ⟨2, false, [], false, false, [], true, false, false⟩] 7 =
      some (7, ["out\n".data, "err\n".data], [])) := by
  refine ⟨execute_merge_stderr_empty, ?_, ?_⟩
  · unfold execute_command_output
    rw [show (0 : ℚ) + 30 = 30 from by norm_num]
    decide
  · unfold execute_command_output
    rw [show (0 : ℚ) + 30 = 30 from by norm_num]
    decide

theorem c5_stderr_modes_witness :
    execute_command_output false 0 10
        [⟨0, false, [], false, false, [], true, false, false⟩] 5 =
      some (5, [], []) ∧
    ((5 : Int), ([] : List (List Char)), ([] : List (List Char))).2.2 = [] :=
  ⟨by
    unfold execute_command_output
    rw [show (0 : ℚ) + 10 = 10 from by norm_num]
    decide,
    c5_stderr_modes.1 0 10 [⟨0, false, [], false, false, [], true, false, false⟩] 5
      (5, [], [])
      (by
        unfold execute_command_output
        rw [show (0 : ℚ) + 10 = 10 from by norm_num]
        decide)⟩

/-- C6: the key loader returns the first decoder success in the fixed
order RSAKey, ECDSAKey, Ed25519Key, DSSKey; it fails exactly when all
four decoders fail; and in that case the single aggregated error message
is built from every attempted algorithm name paired with that
algorithm's own failure reason — never a silent default. -/
theorem c6_key_loader {K : Type} :
    (∀ (tryLoad : KeyAlg → Except String K) (pkeyPath : String) (pre : List KeyAlg)
      (k : KeyAlg) (post : List KeyAlg) (key : K),
      keyLoaders = pre ++ k :: post →
      (∀ a ∈ pre, ∃ e, tryLoad a = .error e) →
      tryLoad k = .ok key →
      load_private_key tryLoad pkeyPath = .ok key) ∧
    (∀ (tryLoad : KeyAlg → Except String K) (pkeyPath : String) (errf : KeyAlg → String),
      (∀ a, tryLoad a = .error (errf a)) →
      load_private_key tryLoad pkeyPath =
        .error (keyErrorMessage pkeyPath
          (keyLoaders.map (fun a => keyAlgName a ++ ": " ++ errf a)))) ∧
    (∀ (tryLoad : KeyAlg → Except String K) (pkeyPath : String),
      (∃ m, load_private_key tryLoad pkeyPath = .error m) ↔
        (∀ a ∈ keyLoaders, ∃ e, tryLoad a = .error e)) := by
  refine ⟨?_, ?_, ?_⟩
  · intro tryLoad path pre k post key heq hpre hk
    exact loadKeyGo_first_ok tryLoad path keyLoaders pre k post key [] heq hpre hk
  · intro tryLoad path errf hall
    have h := loadKeyGo_all_fail tryLoad path errf keyLoaders [] (fun a _ => hall a)
    simpa [load_private_key] using h
  · intro tryLoad path
    constructor
    · rintro ⟨m, hm⟩ a ha
      cases hta : tryLoad a with
      | error e => exact ⟨e, rfl⟩
      | ok key =>
        obtain ⟨key2, hk2⟩ := loadKeyGo_ok_of_some_ok tryLoad path keyLoaders []
          ⟨a, ha, key, hta⟩
        unfold load_private_key at hm
        rw [hm] at hk2
        exact Except.noConfusion hk2
    · intro hall
      obtain ⟨m, hm⟩ := loadKeyGo_error_of_all_fail tryLoad path keyLoaders [] hall
      exact ⟨m, hm⟩

theorem c6_key_loader_witness :
    load_private_key tryLoadDemo "id_rsa" = .ok 42 ∧
    load_private_key tryLoadAllFailDemo "id_rsa" =
      .error (keyErrorMessage "id_rsa"
        (keyLoaders.map (fun a => keyAlgName a ++ ": " ++ allFailReasons a))) :=
  ⟨(@c6_key_loader ℕ).1 tryLoadDemo "id_rsa" [.rsaKey] .ecdsaKey [.ed25519Key, .dssKey] 42
      rfl
      (fun a ha => ⟨"encoding error", by
        rcases List.mem_singleton.mp ha with rfl
        rfl⟩)
      rfl,
    (@c6_key_loader ℕ).2.1 tryLoadAllFailDemo "id_rsa" allFailReasons
      (fun a => rfl)⟩

/-- C7: the connection loop makes at most `retries` connect attempts;
when the first success is 0-based attempt `k` it stops immediately
(`k + 1` connect calls, `k` sleeps of the fixed interval) and returns
the connected session, earlier failures notwithstanding; the loop raises
the "SSH connection to <target> failed" error exactly when all
`retries` attempts fail; and the source defaults are 5 retries with a
1-second interval. -/
theorem c7_retry_loop :
    (∀ (connectOk : ℕ → Bool) (ip : String) (retries : ℕ),
      (ssh_enter connectOk ip retries).attemptsMade ≤ retries) ∧
    (∀ (connectOk : ℕ → Bool) (ip : String) (retries k : ℕ),
      k < retries → connectOk k = true → (∀ j < k, connectOk j = false) →
      ssh_enter connectOk ip retries = ⟨k + 1, k, .ok ()⟩) ∧
    (∀ (connectOk : ℕ → Bool) (ip : String) (retries : ℕ),
      (∀ j < retries, connectOk j = false) →
      ssh_enter connectOk ip retries =
        ⟨retries, retries, .error ("SSH connection to " ++ ip ++ " failed")⟩) ∧
    (∀ (connectOk : ℕ → Bool) (ip : String) (retries : ℕ),
      (∃ msg, (ssh_enter connectOk ip retries).outcome = .error msg) ↔
        ∀ j < retries, connectOk j = false) ∧
    (defaultNRetries = 5 ∧ defaultRetryInterval = 1) := by
  refine ⟨?_, ?_, ?_, ?_, rfl, rfl⟩
  · intro connectOk ip retries
    simpa [ssh_enter] using enterGo_attempts_le connectOk ip retries 0
  · intro connectOk ip retries k hk hok hpre
    have h := enterGo_first_ok connectOk ip retries 0 k hk (by simpa using hok)
      (fun j _ h2 => hpre j (by omega))
    simpa [ssh_enter] using h
  · intro connectOk ip retries hall
    have h := enterGo_all_fail connectOk ip retries 0
      (fun j _ h2 => hall j (by omega))
    simpa [ssh_enter] using h
  · intro connectOk ip retries
    constructor
    · rintro ⟨msg, hmsg⟩ j hj
      cases hcj : connectOk j with
      | false => rfl
      | true =>
        have hok : (ssh_enter connectOk ip retries).outcome = .ok () :=
          enterGo_ok_of_exists connectOk ip retries 0 ⟨j, hj, by simpa using hcj⟩
        rw [hmsg] at hok
        exact Except.noConfusion hok
    · intro hall
      refine ⟨"SSH connection to " ++ ip ++ " failed", ?_⟩
      have h := enterGo_all_fail connectOk ip retries 0
        (fun j _ h2 => hall j (by omega))
      have h2 : ssh_enter connectOk ip retries =
          ⟨retries, retries, .error ("SSH connection to " ++ ip ++ " failed")⟩ := by
        simpa [ssh_enter] using h
      rw [h2]

theorem c7_retry_loop_witness :
    ssh_enter connectOkDemo "10.0.0.1" 5 = ⟨3, 2, .ok ()⟩ :=
  c7_retry_loop.2.1 connectOkDemo "10.0.0.1" 5 2 (by decide) (by decide) (by decide)

/-- C8: `command_with_etc` produces exactly `sh -lc ` followed by one
shlex-quoted argument; that argument quotes the profile-sourcing guard
`[ -r /etc/profile ] && . /etc/profile >/dev/null 2>&1; ` (source the
profile only if readable, discarding errors, so an absent profile cannot
abort) followed by the original command; and one layer of shell quote
removal on the argument recovers the guard-plus-command string verbatim,
whatever quoting, special characters or metacharacters the command
contains. -/
theorem c8_command_wrapping : ∀ cmd : List Char,
    command_with_etc cmd = "sh -lc ".data ++ shlexQuote (etcProfileGuard ++ cmd) ∧
    etcProfileGuard = "[ -r /etc/profile ] && . /etc/profile >/dev/null 2>&1; ".data ∧
    shellDequoteWord (shlexQuote (etcProfileGuard ++ cmd)) =
      some (etcProfileGuard ++ cmd) :=
  fun _ => ⟨rfl, rfl, shellDequoteWord_shlexQuote _⟩

/-- C9: a `recv` raising while data was announced aborts the capture
with the channel-error exception and the state captured so far
(flushed); and `execute_command_output` maps every exceptional outcome —
timeout or channel error alike — to the sentinel -1 with the partial
output, so -1 does not by itself distinguish a timeout from another
capture-level failure. -/
theorem c9_any_exception_sentinel :
    (∀ (sep : Bool) (deadline : ℚ) (e : IterEnv) (rest : List IterEnv)
      (st : CaptureState), ¬ deadline < e.now →
      e.stdoutReady = true → e.recvFails = true →
      readOutputLoop sep deadline (e :: rest) st =
        some (finishCapture st (some .channelErr))) ∧
    (∀ (sep : Bool) (startTime maxExecTime : ℚ) (env : List IterEnv)
      (channelExitStatus : Int) (r : CaptureResult) (exc : CaptureExc),
      readOutputLoop sep (startTime + maxExecTime) env initCaptureState = some r →
      r.exc = some exc →
      execute_command_output sep startTime maxExecTime env channelExitStatus =
        some (-1, r.stdoutLines, r.stderrLines)) := by
  constructor
  · intro sep deadline e rest st h1 h2 h3
    exact readOutputLoop_recvFail rest st h1 h2 h3
  · intro sep s m env ex r exc h hexc
    simp only [execute_command_output, h, hexc]

theorem c9_any_exception_witness :
    execute_command_output true 0 10
        [⟨0, true, [104, 105], true, false, [], true, false, false⟩] 7 =
      some (-1, (finishCapture initCaptureState (some .channelErr)).stdoutLines,
        (finishCapture initCaptureState (some .channelErr)).stderrLines) :=
  c9_any_exception_sentinel.2 true 0 10
    [⟨0, true, [104, 105], true, false, [], true, false, false⟩] 7
    (finishCapture initCaptureState (some .channelErr)) .channelErr
    (by rw [show (0 : ℚ) + 10 = 10 from by norm_num]; decide) (by decide)

/-- C10: the reassembler splits decoded text on all universal line
boundaries, every completed line nonempty and — when not the last —
ending in a boundary character kept by the split, the lines
concatenating back to the text exactly; the pending fragment never ends
in `'\n'`; concretely, VT / FF / NEL / LINE SEPARATOR / `"\r\n"` / bare
`'\r'` / `'\n'` all split as universal boundaries, while for the final
piece of a chunk only a trailing `'\n'` counts as terminated: a decoded
chunk ending in a bare `'\r'` or in U+2028 keeps its last line as the
pending fragment, whereas a trailing `'\n'` (or `"\r\n"`) lets every
line be emitted. -/
theorem c10_line_splitting :
    (∀ t : List Char, (splitLines t).flatten = t) ∧
    (∀ (t l : List Char), l ∈ splitLines t → l ≠ []) ∧
    (∀ (t l : List Char), l ∈ (splitLines t).dropLast →
      ∃ c, l.getLast? = some c ∧ isLineBoundary c = true) ∧
    (∀ (data : List Nat) (pending : List Char),
      (iter_channel_lines_from_bytes data pending).2 = [] ∨
        (iter_channel_lines_from_bytes data pending).2.getLast? ≠ some '\n') ∧
    (splitLines "a\x0bb\x0cc\x85d e\r\nf\rg\n".data =
      ["a\x0b".data, "b\x0c".data, "c\x85".data, "d ".data, "e\r\n".data,
        "f\r".data, "g\n".data]) ∧
    (iter_channel_lines_from_bytes [97, 13] [] = ([], ['a', '\r']) ∧
      iter_channel_lines_from_bytes [97, 0xE2, 0x80, 0xA8] [] = ([], "a ".data) ∧
      iter_channel_lines_from_bytes [97, 13, 10] [] = (["a\r\n".data], []) ∧
      iter_channel_lines_from_bytes [97, 10] [] = (["a\n".data], [])) := by
  refine ⟨splitLines_flatten, fun t l hl => splitLines_mem_ne_nil hl,
    fun t l hl => splitLinesAux_dropLast_boundary t [] l hl,
    fun data pending => commitLines_pending _,
    by decide, by decide, by decide, by decide, by decide⟩

theorem c10_line_splitting_witness :
    ("a\n".data : List Char) ≠ [] :=
  c10_line_splitting.2.1 "a\n".data "a\n".data (by decide)

end ScoreItf
